import Mathlib

/-!
Shallow embedding of the quadrature engine in src/integration_techniques.c.

Real numbers (C `double`) are modelled by `ℚ`, so the statements capture the
algebraic content of each rule: which points the integrand is evaluated at,
with which weights, and what value is returned.  The C `NAN` sentinel becomes
`none` in an `Option ℚ` result.  A possibly-NULL `IntegrationParams *`
argument becomes `Option IntegrationParams`, and a possibly-NULL function
member becomes `Option MathFunction`.  Every rule additionally returns the
list of points at which the integrand was evaluated, in call order, so that
statements of the form "the function is never evaluated" are expressible.
C loop counters are `long long`; every loop body reachable after validation
has nonnegative bounds, so loop indices are embedded as `ℕ`.  The C library
random source `rand()` is modelled as an input stream `ℕ → ℕ` of raw draws,
reduced mod `RAND_MAX + 1` to reflect the guaranteed range of `rand()`.
-/

/-- The C function-pointer type `MathFunction`: a map from reals to reals. -/
abbrev MathFunction : Type := ℚ → ℚ

/-- The struct `IntegrationParams` of integration_techniques.h: the function
to integrate (a possibly-NULL pointer), the bounds, and the interval count
(a `long long`, modelled as `ℤ`). -/
structure IntegrationParams where
  func : Option MathFunction
  lower_bound : ℚ
  upper_bound : ℚ
  num_intervals : ℤ
deriving Inhabited

/-- The glibc value of `RAND_MAX`; `rand()` returns values in
`[0, RAND_MAX]`, both endpoints included. -/
def RAND_MAX : ℕ := 2147483647

/-- The shared validation check `is_invalid`: a request is invalid when the
request pointer itself is NULL, the function member is NULL,
`num_intervals <= 0`, or `upper_bound <= lower_bound`. -/
def is_invalid (p? : Option IntegrationParams) : Bool :=
  match p? with
  | none => true
  | some p =>
      p.func.isNone || decide (p.num_intervals ≤ 0) ||
        decide (p.upper_bound ≤ p.lower_bound)

/-- Number of iterations of the C loop
`for (i = start; i < stop; i += step)`, for `step > 0`. -/
def cForCount (start stop step : ℕ) : ℕ := (stop - start + step - 1) / step

/-- The index sequence visited by the C loop
`for (i = start; i < stop; i += step)`, in order. -/
def cForIndices (start stop step : ℕ) : List ℕ :=
  (List.range (cForCount start stop step)).map (fun k => start + step * k)

/-- `rectangle_left_endpoint`: after validation, `dx = (b - a) / n` and the
loop `for (i = 0; i < n; ++i) sum += f(a + i * dx)`; returns `sum * dx`.
The second component is the trace of evaluation points, in call order. -/
def rectangle_left_endpoint (p? : Option IntegrationParams) :
    Option ℚ × List ℚ :=
  if is_invalid p? then (none, [])
  else
    let p := p?.getD default
    let a := p.lower_bound
    let b := p.upper_bound
    let n := p.num_intervals
    let f := p.func.getD (fun _ => 0)
    let dx := (b - a) / (n : ℚ)
    let pts := (cForIndices 0 n.toNat 1).map (fun (i : ℕ) => a + (i : ℚ) * dx)
    let sum := pts.foldl (fun s x => s + f x) 0
    (some (sum * dx), pts)

/-- `rectangle_right_endpoint`: the loop is
`for (i = 1; i <= n; ++i) sum += f(a + i * dx)`; the condition `i <= n`
is `i < n + 1`. -/
def rectangle_right_endpoint (p? : Option IntegrationParams) :
    Option ℚ × List ℚ :=
  if is_invalid p? then (none, [])
  else
    let p := p?.getD default
    let a := p.lower_bound
    let b := p.upper_bound
    let n := p.num_intervals
    let f := p.func.getD (fun _ => 0)
    let dx := (b - a) / (n : ℚ)
    let pts := (cForIndices 1 (n.toNat + 1) 1).map (fun (i : ℕ) => a + (i : ℚ) * dx)
    let sum := pts.foldl (fun s x => s + f x) 0
    (some (sum * dx), pts)

/-- `rectangle_midpoint`: the loop
`for (i = 0; i < n; ++i) sum += f(a + (i + 0.5) * dx)`. -/
def rectangle_midpoint (p? : Option IntegrationParams) :
    Option ℚ × List ℚ :=
  if is_invalid p? then (none, [])
  else
    let p := p?.getD default
    let a := p.lower_bound
    let b := p.upper_bound
    let n := p.num_intervals
    let f := p.func.getD (fun _ => 0)
    let dx := (b - a) / (n : ℚ)
    let pts := (cForIndices 0 n.toNat 1).map (fun (i : ℕ) => a + ((i : ℚ) + 0.5) * dx)
    let sum := pts.foldl (fun s x => s + f x) 0
    (some (sum * dx), pts)

/-- `trapezoidal_rule`: `sum` starts at `0.5 * (f(a) + f(b))`, then the loop
`for (i = 1; i < n; ++i) sum += f(a + i * dx)`; returns `sum * dx`. -/
def trapezoidal_rule (p? : Option IntegrationParams) :
    Option ℚ × List ℚ :=
  if is_invalid p? then (none, [])
  else
    let p := p?.getD default
    let a := p.lower_bound
    let b := p.upper_bound
    let n := p.num_intervals
    let f := p.func.getD (fun _ => 0)
    let dx := (b - a) / (n : ℚ)
    let pts := (cForIndices 1 n.toNat 1).map (fun (i : ℕ) => a + (i : ℚ) * dx)
    let sum := pts.foldl (fun s x => s + f x) (0.5 * (f a + f b))
    (some (sum * dx), a :: b :: pts)

/-- `simpsons_1_3_rule`: after validation, rejects odd `num_intervals`;
otherwise `sum` starts at `f(a) + f(b)`, the loop
`for (i = 1; i < n; i += 2) sum += 4.0 * f(a + i * dx)` adds the weight-4
terms, the loop `for (i = 2; i < n - 1; i += 2) sum += 2.0 * f(a + i * dx)`
adds the weight-2 terms; returns `sum * dx / 3.0`. -/
def simpsons_1_3_rule (p? : Option IntegrationParams) :
    Option ℚ × List ℚ :=
  if is_invalid p? then (none, [])
  else
    let p := p?.getD default
    if p.num_intervals % 2 ≠ 0 then (none, [])
    else
      let a := p.lower_bound
      let b := p.upper_bound
      let n := p.num_intervals
      let f := p.func.getD (fun _ => 0)
      let dx := (b - a) / (n : ℚ)
      let oddPts := (cForIndices 1 n.toNat 2).map (fun (i : ℕ) => a + (i : ℚ) * dx)
      let evenPts :=
        (cForIndices 2 (n.toNat - 1) 2).map (fun (i : ℕ) => a + (i : ℚ) * dx)
      let sum1 := oddPts.foldl (fun s x => s + 4 * f x) (f a + f b)
      let sum := evenPts.foldl (fun s x => s + 2 * f x) sum1
      (some (sum * dx / 3), a :: b :: (oddPts ++ evenPts))

/-- `simpsons_3_8_rule`: after validation, rejects `num_intervals` not
divisible by 3; otherwise `sum` starts at `f(a) + f(b)` and the loop
`for (i = 1; i < n; ++i)` adds `2.0 * f(a + i * dx)` when `i % 3 == 0`
and `3.0 * f(a + i * dx)` otherwise; returns `sum * dx * 3.0 / 8.0`. -/
def simpsons_3_8_rule (p? : Option IntegrationParams) :
    Option ℚ × List ℚ :=
  if is_invalid p? then (none, [])
  else
    let p := p?.getD default
    if p.num_intervals % 3 ≠ 0 then (none, [])
    else
      let a := p.lower_bound
      let b := p.upper_bound
      let n := p.num_intervals
      let f := p.func.getD (fun _ => 0)
      let dx := (b - a) / (n : ℚ)
      let idxs := cForIndices 1 n.toNat 1
      let sum := idxs.foldl
        (fun (s : ℚ) (i : ℕ) => s + (if i % 3 = 0 then 2 else 3) * f (a + (i : ℚ) * dx))
        (f a + f b)
      (some (sum * dx * 3 / 8), a :: b :: idxs.map (fun (i : ℕ) => a + (i : ℚ) * dx))

/-- `monte_carlo_integration`: the loop
`for (i = 0; i < n; ++i) sum += f(a + ((double)rand() / RAND_MAX) * range)`
with `range = b - a`; returns `(sum / n) * range`.  The i-th call of
`rand()` is modelled as `rng i % (RAND_MAX + 1)`, reflecting that `rand()`
returns a value in `[0, RAND_MAX]`, both endpoints included. -/
def monte_carlo_integration (p? : Option IntegrationParams) (rng : ℕ → ℕ) :
    Option ℚ × List ℚ :=
  if is_invalid p? then (none, [])
  else
    let p := p?.getD default
    let a := p.lower_bound
    let b := p.upper_bound
    let n := p.num_intervals
    let f := p.func.getD (fun _ => 0)
    let range := b - a
    let pts := (cForIndices 0 n.toNat 1).map
      (fun (i : ℕ) => a + ((rng i % (RAND_MAX + 1) : ℕ) : ℚ) / (RAND_MAX : ℚ) * range)
    let sum := pts.foldl (fun s x => s + f x) 0
    (some ((sum / (n : ℚ)) * range), pts)

/-- Selector for the seven integration techniques exposed by the engine. -/
inductive Rule
  | rectLeft
  | rectRight
  | rectMid
  | trapezoid
  | simpson13
  | simpson38
  | monteCarlo
deriving DecidableEq

/-- Uniform entry point: run one of the seven rules on a request.  The
random stream `rng` is the process-wide `rand()` state; only the Monte
Carlo rule reads it. -/
def runRule (r : Rule) (p? : Option IntegrationParams) (rng : ℕ → ℕ) :
    Option ℚ × List ℚ :=
  match r with
  | .rectLeft => rectangle_left_endpoint p?
  | .rectRight => rectangle_right_endpoint p?
  | .rectMid => rectangle_midpoint p?
  | .trapezoid => trapezoidal_rule p?
  | .simpson13 => simpsons_1_3_rule p?
  | .simpson38 => simpsons_3_8_rule p?
  | .monteCarlo => monte_carlo_integration p? rng

/-- The common step width `dx = (upper - lower) / n` computed by every
deterministic rule after validation. -/
def dxOf (p : IntegrationParams) : ℚ :=
  (p.upper_bound - p.lower_bound) / (p.num_intervals : ℚ)

/-- The multiset of quadrature weights applied by `simpsons_1_3_rule` for a
given interval count, determined by the same loop index ranges the rule
uses: 1 for each of the two endpoints, 4 for each index of the odd-index
loop `for (i = 1; i < n; i += 2)`, 2 for each index of the even-index loop
`for (i = 2; i < n - 1; i += 2)`. -/
def simpsons_1_3_weights (n : ℤ) : List ℤ :=
  1 :: 1 :: ((cForIndices 1 n.toNat 2).map (fun _ => 4)
    ++ (cForIndices 2 (n.toNat - 1) 2).map (fun _ => 2))

/-- Unfolding of the shared validation: a present request passes `is_invalid`
exactly when the function is present, the interval count is positive and the
bounds are strictly ordered. -/
lemma is_invalid_eq_false_iff (p : IntegrationParams) :
    is_invalid (some p) = false ↔
      p.func.isSome = true ∧ 0 < p.num_intervals ∧
        p.lower_bound < p.upper_bound := by
  simp [is_invalid, not_le, Option.isNone_iff_eq_none,
    Option.isSome_iff_ne_none, and_assoc]

/-- Left folds of running sums are sums: folding `s + g x` over a list is the
initial value plus the sum of `g` over the list. -/
lemma foldl_add_map {α : Type} (g : α → ℚ) (c : ℚ) (l : List α) :
    l.foldl (fun s x => s + g x) c = c + (l.map g).sum := by
  induction l generalizing c with
  | nil => simp
  | cons x xs ih => simp [ih, add_assoc]

/-- Summing a function over `List.range` is the `Finset.range` sum. -/
lemma range_map_sum (g : ℕ → ℚ) (m : ℕ) :
    ((List.range m).map g).sum = ∑ k ∈ Finset.range m, g k := by
  induction m with
  | zero => simp
  | succ m ih => rw [List.range_succ]; simp [ih, Finset.sum_range_succ]

/-- Summing a function over the indices of a C loop is a `Finset.range` sum
over the iteration counter. -/
lemma cForIndices_map_sum (g : ℕ → ℚ) (start stop step : ℕ) :
    ((cForIndices start stop step).map g).sum
      = ∑ k ∈ Finset.range (cForCount start stop step),
          g (start + step * k) := by
  rw [cForIndices, List.map_map]
  exact range_map_sum _ _

/-- A step-1 C loop from `start` to `stop` makes `stop - start` iterations. -/
lemma cForCount_step_one (start stop : ℕ) :
    cForCount start stop 1 = stop - start := by
  unfold cForCount; omega

/-- The odd-index loop of Simpson's 1/3 rule makes `n / 2` iterations. -/
lemma cForCount_odd_loop (n : ℕ) : cForCount 1 n 2 = n / 2 := by
  unfold cForCount; omega

/-- The even-index loop of Simpson's 1/3 rule makes `(n - 2) / 2`
iterations. -/
lemma cForCount_even_loop (n : ℕ) : cForCount 2 (n - 1) 2 = (n - 2) / 2 := by
  unfold cForCount; omega

/-- The odd numbers in `[1, 2*m)` are exactly `1 + 2*k` for `k < m`. -/
lemma filter_odd_Ico (m : ℕ) :
    (Finset.Ico 1 (2 * m)).filter (fun i => i % 2 = 1)
      = (Finset.range m).image (fun k => 1 + 2 * k) := by
  ext i
  simp only [Finset.mem_filter, Finset.mem_Ico, Finset.mem_image,
    Finset.mem_range]
  constructor
  · intro h
    exact ⟨i / 2, by omega, by omega⟩
  · rintro ⟨k, hk, rfl⟩
    omega

/-- The even numbers in `[1, 2*m)` are exactly `2 + 2*k` for `k < m - 1`. -/
lemma filter_even_Ico (m : ℕ) :
    (Finset.Ico 1 (2 * m)).filter (fun i => ¬ i % 2 = 1)
      = (Finset.range (m - 1)).image (fun k => 2 + 2 * k) := by
  ext i
  simp only [Finset.mem_filter, Finset.mem_Ico, Finset.mem_image,
    Finset.mem_range]
  constructor
  · intro h
    exact ⟨(i - 2) / 2, by omega, by omega⟩
  · rintro ⟨k, hk, rfl⟩
    omega

/-- Sums over the image of `k ↦ 1 + 2*k` pull back to sums over the range. -/
lemma sum_image_one_add_two_mul (g : ℕ → ℚ) (m : ℕ) :
    ∑ i ∈ (Finset.range m).image (fun k => 1 + 2 * k), g i
      = ∑ k ∈ Finset.range m, g (1 + 2 * k) :=
  Finset.sum_image (fun x _ y _ h => by omega)

/-- Sums over the image of `k ↦ 2 + 2*k` pull back to sums over the range. -/
lemma sum_image_two_add_two_mul (g : ℕ → ℚ) (m : ℕ) :
    ∑ i ∈ (Finset.range m).image (fun k => 2 + 2 * k), g i
      = ∑ k ∈ Finset.range m, g (2 + 2 * k) :=
  Finset.sum_image (fun x _ y _ h => by omega)

/-- If a present request fails one of the three spec-level validity
conditions, the shared check flags it. -/
lemma is_invalid_of_bad (p : IntegrationParams)
    (h : p.func = none ∨ p.num_intervals ≤ 0 ∨
      p.upper_bound ≤ p.lower_bound) :
    is_invalid (some p) = true := by
  simp only [is_invalid, Bool.or_eq_true, decide_eq_true_eq,
    Option.isNone_iff_eq_none, or_assoc]
  exact h

/-- C1: for every one of the seven integration rules, if the request is
invalid — the function reference is absent, `intervals <= 0`, or
`upper <= lower` — the rule returns the not-a-number sentinel (`none`) and
the supplied function is never evaluated (the evaluation trace is empty). -/
theorem invalid_returns_nan_without_evaluation (r : Rule)
    (p : IntegrationParams) (rng : ℕ → ℕ)
    (h : p.func = none ∨ p.num_intervals ≤ 0 ∨
      p.upper_bound ≤ p.lower_bound) :
    runRule r (some p) rng = (none, []) := by
  have hv := is_invalid_of_bad p h
  cases r <;>
    simp [runRule, rectangle_left_endpoint, rectangle_right_endpoint,
      rectangle_midpoint, trapezoidal_rule, simpsons_1_3_rule,
      simpsons_3_8_rule, monte_carlo_integration, hv]

/-- Witness for C1: the left-rectangle rule at `intervals = 0` returns the
sentinel with an empty evaluation trace. -/
theorem invalid_returns_nan_without_evaluation_witness :
    runRule Rule.rectLeft (some ⟨some (fun x => x), 0, 1, 0⟩) (fun _ => 0)
      = (none, []) :=
  invalid_returns_nan_without_evaluation Rule.rectLeft _ _
    (Or.inr (Or.inl (by norm_num)))

/-- C10: a null request pointer itself (`none` in place of the whole
request) is caught by the shared validity check and yields the not-a-number
sentinel with no function evaluation, for every one of the seven rules. -/
theorem null_request_returns_nan (r : Rule) (rng : ℕ → ℕ) :
    runRule r none rng = (none, []) ∧ is_invalid none = true := by
  refine ⟨?_, rfl⟩
  cases r <;>
    simp [runRule, rectangle_left_endpoint, rectangle_right_endpoint,
      rectangle_midpoint, trapezoidal_rule, simpsons_1_3_rule,
      simpsons_3_8_rule, monte_carlo_integration, is_invalid]

/-- C2: on an otherwise-valid request, Simpson's 1/3 rule returns the
sentinel exactly when `intervals` is odd, and Simpson's 3/8 rule returns
the sentinel exactly when `intervals` is not divisible by 3; otherwise each
returns a numeric value. -/
theorem simpsons_divisibility_checks (p : IntegrationParams)
    (hv : is_invalid (some p) = false) :
    ((simpsons_1_3_rule (some p)).1 = none ↔ ¬ p.num_intervals % 2 = 0) ∧
      ((simpsons_3_8_rule (some p)).1 = none ↔ ¬ p.num_intervals % 3 = 0) := by
  constructor
  · simp only [simpsons_1_3_rule, hv, Bool.false_eq_true, if_false,
      Option.getD_some]
    by_cases h : p.num_intervals % 2 = 0
    · simp [h]
    · simp [h]
  · simp only [simpsons_3_8_rule, hv, Bool.false_eq_true, if_false,
      Option.getD_some]
    by_cases h : p.num_intervals % 3 = 0
    · simp [h]
    · simp [h]

/-- Witness for C2: at `intervals = 2`, Simpson's 1/3 proceeds (even count)
while Simpson's 3/8 returns the sentinel (2 is not divisible by 3). -/
theorem simpsons_divisibility_checks_witness :
    ((simpsons_1_3_rule (some ⟨some (fun x => x), 0, 1, 2⟩)).1 = none ↔
        ¬ (2 : ℤ) % 2 = 0) ∧
      ((simpsons_3_8_rule (some ⟨some (fun x => x), 0, 1, 2⟩)).1 = none ↔
        ¬ (2 : ℤ) % 3 = 0) :=
  simpsons_divisibility_checks ⟨some (fun x => x), 0, 1, 2⟩ (by decide)

/-- C9: each of the six deterministic rules is a pure function of the
request alone — its outcome does not depend on the state of the random
stream, so two calls with identical requests agree; only Monte Carlo reads
the stream. -/
theorem deterministic_rules_stream_independent (r : Rule)
    (h : r ≠ Rule.monteCarlo) (p? : Option IntegrationParams)
    (rng₁ rng₂ : ℕ → ℕ) :
    runRule r p? rng₁ = runRule r p? rng₂ := by
  cases r <;> first | rfl | exact absurd rfl h

/-- Witness for C9: the trapezoidal rule gives the same outcome under two
different random streams. -/
theorem deterministic_rules_stream_independent_witness :
    runRule Rule.trapezoid (some ⟨some (fun x => x), 0, 1, 4⟩) (fun _ => 0)
      = runRule Rule.trapezoid (some ⟨some (fun x => x), 0, 1, 4⟩)
          (fun _ => 1) :=
  deterministic_rules_stream_independent Rule.trapezoid (by decide) _ _ _

/-- Evaluation of the left-rectangle rule on a valid request: the result is
the sum of `f` at the left endpoints times `dx`, and the trace has one
evaluation per subinterval. -/
lemma rect_left_eval (p : IntegrationParams) (f : MathFunction)
    (hf : p.func = some f) (hv : is_invalid (some p) = false) :
    (rectangle_left_endpoint (some p)).1
        = some ((∑ i ∈ Finset.range p.num_intervals.toNat,
            f (p.lower_bound + (i : ℚ) * dxOf p)) * dxOf p) ∧
      (rectangle_left_endpoint (some p)).2.length = p.num_intervals.toNat := by
  simp only [rectangle_left_endpoint, hv, Bool.false_eq_true, if_false,
    Option.getD_some, hf]
  constructor
  · rw [foldl_add_map, List.map_map, cForIndices_map_sum]
    simp [cForCount_step_one, dxOf, Function.comp]
  · simp [cForIndices, cForCount_step_one]

/-- Evaluation of the right-rectangle rule on a valid request: the result
is the sum of `f` at the right endpoints times `dx`, and the trace has one
evaluation per subinterval. -/
lemma rect_right_eval (p : IntegrationParams) (f : MathFunction)
    (hf : p.func = some f) (hv : is_invalid (some p) = false) :
    (rectangle_right_endpoint (some p)).1
        = some ((∑ i ∈ Finset.range p.num_intervals.toNat,
            f (p.lower_bound + ((i : ℚ) + 1) * dxOf p)) * dxOf p) ∧
      (rectangle_right_endpoint (some p)).2.length
        = p.num_intervals.toNat := by
  simp only [rectangle_right_endpoint, hv, Bool.false_eq_true, if_false,
    Option.getD_some, hf]
  constructor
  · rw [foldl_add_map, List.map_map, cForIndices_map_sum]
    rw [cForCount_step_one, Nat.add_sub_cancel, zero_add]
    congr 1
    congr 1
    refine Finset.sum_congr rfl (fun k _ => ?_)
    simp only [Function.comp]
    congr 1
    unfold dxOf
    push_cast
    ring
  · simp [cForIndices, cForCount_step_one]

/-- Evaluation of the midpoint rule on a valid request: the result is the
sum of `f` at the subinterval midpoints times `dx`, and the trace has one
evaluation per subinterval. -/
lemma rect_mid_eval (p : IntegrationParams) (f : MathFunction)
    (hf : p.func = some f) (hv : is_invalid (some p) = false) :
    (rectangle_midpoint (some p)).1
        = some ((∑ i ∈ Finset.range p.num_intervals.toNat,
            f (p.lower_bound + ((i : ℚ) + 0.5) * dxOf p)) * dxOf p) ∧
      (rectangle_midpoint (some p)).2.length = p.num_intervals.toNat := by
  simp only [rectangle_midpoint, hv, Bool.false_eq_true, if_false,
    Option.getD_some, hf]
  constructor
  · rw [foldl_add_map, List.map_map, cForIndices_map_sum]
    simp [cForCount_step_one, dxOf, Function.comp]
  · simp [cForIndices, cForCount_step_one]

/-- C5: on every valid request with `n = intervals` and
`dx = (upper - lower) / n`, the left rectangle rule returns the sum of
`f(lower + i*dx)` over `i = 0..n-1` times `dx`, the right rectangle rule
returns the sum of `f(lower + (i+1)*dx)` over `i = 0..n-1` times `dx`, and
the midpoint rule returns the sum of `f(lower + (i+0.5)*dx)` over
`i = 0..n-1` times `dx`; each rule evaluates the integrand exactly `n`
times. -/
theorem rectangle_rules_formulas (p : IntegrationParams) (f : MathFunction)
    (hf : p.func = some f) (hv : is_invalid (some p) = false) :
    ((rectangle_left_endpoint (some p)).1
        = some ((∑ i ∈ Finset.range p.num_intervals.toNat,
            f (p.lower_bound + (i : ℚ) * dxOf p)) * dxOf p) ∧
      (rectangle_left_endpoint (some p)).2.length = p.num_intervals.toNat) ∧
    ((rectangle_right_endpoint (some p)).1
        = some ((∑ i ∈ Finset.range p.num_intervals.toNat,
            f (p.lower_bound + ((i : ℚ) + 1) * dxOf p)) * dxOf p) ∧
      (rectangle_right_endpoint (some p)).2.length
        = p.num_intervals.toNat) ∧
    ((rectangle_midpoint (some p)).1
        = some ((∑ i ∈ Finset.range p.num_intervals.toNat,
            f (p.lower_bound + ((i : ℚ) + 0.5) * dxOf p)) * dxOf p) ∧
      (rectangle_midpoint (some p)).2.length = p.num_intervals.toNat) :=
  ⟨rect_left_eval p f hf hv, rect_right_eval p f hf hv,
    rect_mid_eval p f hf hv⟩

/-- Witness for C5: for the constant-one integrand on `[0, 1]` with two
subintervals, the left rectangle rule returns exactly `1`. -/
theorem rectangle_rules_formulas_witness :
    (rectangle_left_endpoint (some ⟨some (fun _ => (1 : ℚ)), 0, 1, 2⟩)).1
      = some 1 := by
  have h := rectangle_rules_formulas ⟨some (fun _ => (1 : ℚ)), 0, 1, 2⟩
    (fun _ => 1) rfl (by decide)
  rw [h.1.1]
  norm_num [dxOf, show (2 : ℤ).toNat = 2 from rfl]

/-- Evaluation of the trapezoidal rule on a valid request: the result is
`dx` times the halved endpoint evaluations plus the interior evaluations
at `lower + i*dx` for `i = 1..n-1`, and the trace has `n + 1` entries
(the two endpoints plus `n - 1` interior points). -/
lemma interior_sum_eq (f : MathFunction) (a d : ℚ) (N : ℕ) :
    (((cForIndices 1 N 1).map (fun (i : ℕ) => a + (i : ℚ) * d)).map f).sum
      = ∑ i ∈ Finset.Ico 1 N, f (a + (i : ℚ) * d) := by
  rw [List.map_map, cForIndices_map_sum, cForCount_step_one,
    Finset.sum_Ico_eq_sum_range]
  refine Finset.sum_congr rfl (fun k _ => ?_)
  simp only [Function.comp]
  congr 1
  push_cast
  ring

lemma trapezoid_eval (p : IntegrationParams) (f : MathFunction)
    (hf : p.func = some f) (hv : is_invalid (some p) = false) :
    (trapezoidal_rule (some p)).1
        = some ((0.5 * f p.lower_bound + 0.5 * f p.upper_bound
            + ∑ i ∈ Finset.Ico 1 p.num_intervals.toNat,
                f (p.lower_bound + (i : ℚ) * dxOf p)) * dxOf p) ∧
      (trapezoidal_rule (some p)).2.length = p.num_intervals.toNat + 1 := by
  have hn : 0 < p.num_intervals := ((is_invalid_eq_false_iff p).1 hv).2.1
  simp only [trapezoidal_rule, hv, Bool.false_eq_true, if_false,
    Option.getD_some, hf]
  constructor
  · rw [foldl_add_map, interior_sum_eq]
    simp only [dxOf]
    congr 1
    ring
  · simp only [List.length_cons, List.length_map, cForIndices,
      List.length_range, cForCount_step_one]
    omega

/-- C6: on every valid request with `n = intervals` and
`dx = (upper - lower) / n`, the trapezoidal rule returns `dx` times
`0.5*f(lower) + 0.5*f(upper)` plus the `n - 1` interior evaluations
`f(lower + i*dx)` for `i = 1..n-1`, each with weight 1; no precondition
beyond the shared validation is required. -/
theorem trapezoidal_rule_formula (p : IntegrationParams) (f : MathFunction)
    (hf : p.func = some f) (hv : is_invalid (some p) = false) :
    (trapezoidal_rule (some p)).1
        = some ((0.5 * f p.lower_bound + 0.5 * f p.upper_bound
            + ∑ i ∈ Finset.Ico 1 p.num_intervals.toNat,
                f (p.lower_bound + (i : ℚ) * dxOf p)) * dxOf p) ∧
      (trapezoidal_rule (some p)).2.length = p.num_intervals.toNat + 1 :=
  trapezoid_eval p f hf hv

/-- Witness for C6: for the constant-one integrand on `[0, 1]` with two
subintervals, the trapezoidal rule returns exactly `1`. -/
theorem trapezoidal_rule_formula_witness :
    (trapezoidal_rule (some ⟨some (fun _ => (1 : ℚ)), 0, 1, 2⟩)).1
      = some 1 := by
  have h := trapezoidal_rule_formula ⟨some (fun _ => (1 : ℚ)), 0, 1, 2⟩
    (fun _ => 1) rfl (by decide)
  rw [h.1]
  norm_num [dxOf, show (2 : ℤ).toNat = 2 from rfl,
    Finset.sum_Ico_eq_sum_range]

lemma weighted_interior_sum_eq (f : MathFunction) (a d : ℚ) (N : ℕ) :
    ((cForIndices 1 N 1).map
        (fun (i : ℕ) => (if i % 3 = 0 then (2 : ℚ) else 3)
          * f (a + (i : ℚ) * d))).sum
      = ∑ i ∈ Finset.Ico 1 N,
          (if i % 3 = 0 then (2 : ℚ) else 3) * f (a + (i : ℚ) * d) := by
  rw [cForIndices_map_sum, cForCount_step_one, Finset.sum_Ico_eq_sum_range]
  refine Finset.sum_congr rfl (fun k _ => ?_)
  rw [one_mul]

/-- C7: on every valid request whose interval count `n` is a multiple of 3,
Simpson's 3/8 rule returns `sum * dx * 3/8` where `sum` is
`f(lower) + f(upper)` with weight 1 plus, for each interior index
`i = 1..n-1`, the evaluation `f(lower + i*dx)` with weight 2 when `i` is a
multiple of 3 and weight 3 otherwise; the trace has `n + 1` entries. -/
theorem simpsons_3_8_valid_formula (p : IntegrationParams)
    (f : MathFunction) (hf : p.func = some f)
    (hv : is_invalid (some p) = false) (he : p.num_intervals % 3 = 0) :
    (simpsons_3_8_rule (some p)).1
        = some ((f p.lower_bound + f p.upper_bound
            + ∑ i ∈ Finset.Ico 1 p.num_intervals.toNat,
                (if i % 3 = 0 then (2 : ℚ) else 3)
                  * f (p.lower_bound + (i : ℚ) * dxOf p))
            * dxOf p * 3 / 8) ∧
      (simpsons_3_8_rule (some p)).2.length = p.num_intervals.toNat + 1 := by
  have hn : 0 < p.num_intervals := ((is_invalid_eq_false_iff p).1 hv).2.1
  simp only [simpsons_3_8_rule, hv, Bool.false_eq_true, if_false,
    Option.getD_some, hf, he, ne_eq, not_true_eq_false]
  constructor
  · rw [foldl_add_map, weighted_interior_sum_eq]
    simp only [dxOf]
  · simp only [List.length_cons, List.length_map, cForIndices,
      List.length_range, cForCount_step_one]
    omega

/-- Witness for C7: for the constant-one integrand on `[0, 1]` with three
subintervals, Simpson's 3/8 rule returns exactly `1`. -/
theorem simpsons_3_8_valid_formula_witness :
    (simpsons_3_8_rule (some ⟨some (fun _ => (1 : ℚ)), 0, 1, 3⟩)).1
      = some 1 := by
  have h := simpsons_3_8_valid_formula ⟨some (fun _ => (1 : ℚ)), 0, 1, 3⟩
    (fun _ => 1) rfl (by decide) (by decide)
  rw [h.1]
  norm_num [dxOf, show (3 : ℤ).toNat = 3 from rfl,
    Finset.sum_Ico_eq_sum_range, Finset.sum_range_succ]

lemma simpson13_interior_sum (g : ℕ → ℚ) (N : ℕ) (hN : N % 2 = 0) :
    (∑ k ∈ Finset.range (N / 2), 4 * g (1 + 2 * k))
      + ∑ k ∈ Finset.range ((N - 2) / 2), 2 * g (2 + 2 * k)
      = ∑ i ∈ Finset.Ico 1 N, (if i % 2 = 1 then (4 : ℚ) else 2) * g i := by
  obtain ⟨m, rfl⟩ : ∃ m, N = 2 * m := ⟨N / 2, by omega⟩
  rw [← Finset.sum_filter_add_sum_filter_not (Finset.Ico 1 (2 * m))
    (fun i => i % 2 = 1)]
  rw [filter_odd_Ico, filter_even_Ico, sum_image_one_add_two_mul,
    sum_image_two_add_two_mul]
  have h1 : 2 * m / 2 = m := by omega
  have h2 : (2 * m - 2) / 2 = m - 1 := by omega
  rw [h1, h2]
  congr 1
  · refine Finset.sum_congr rfl (fun k _ => ?_)
    rw [if_pos (by omega)]
  · refine Finset.sum_congr rfl (fun k _ => ?_)
    rw [if_neg (by omega)]

/-- C3: on every valid request with even interval count `n`, Simpson's 1/3
rule returns `sum * dx / 3` where `sum` is `f(lower) + f(upper)` with
weight 1 plus, for each interior index `i = 1..n-1` exactly once, the
evaluation `f(lower + i*dx)` with weight 4 when `i` is odd and weight 2
when `i` is even; the trace has `n + 1` entries, so no interior point is
counted twice or omitted. -/
theorem simpsons_1_3_valid_formula (p : IntegrationParams)
    (f : MathFunction) (hf : p.func = some f)
    (hv : is_invalid (some p) = false) (he : p.num_intervals % 2 = 0) :
    (simpsons_1_3_rule (some p)).1
        = some ((f p.lower_bound + f p.upper_bound
            + ∑ i ∈ Finset.Ico 1 p.num_intervals.toNat,
                (if i % 2 = 1 then (4 : ℚ) else 2)
                  * f (p.lower_bound + (i : ℚ) * dxOf p))
            * dxOf p / 3) ∧
      (simpsons_1_3_rule (some p)).2.length = p.num_intervals.toNat + 1 := by
  have hn : 0 < p.num_intervals := ((is_invalid_eq_false_iff p).1 hv).2.1
  have hN2 : p.num_intervals.toNat % 2 = 0 := by omega
  simp only [simpsons_1_3_rule, hv, Bool.false_eq_true, if_false,
    Option.getD_some, hf, he, ne_eq, not_true_eq_false]
  constructor
  · rw [foldl_add_map, foldl_add_map, List.map_map, List.map_map,
      cForIndices_map_sum, cForIndices_map_sum, cForCount_odd_loop,
      cForCount_even_loop]
    simp only [dxOf]
    rw [← simpson13_interior_sum
      (fun i => f (p.lower_bound + (i : ℚ)
        * ((p.upper_bound - p.lower_bound) / (p.num_intervals : ℚ))))
      p.num_intervals.toNat hN2]
    simp only [Function.comp]
    congr 1
    ring
  · simp only [List.length_cons, List.length_append, List.length_map,
      cForIndices, List.length_range, cForCount_odd_loop,
      cForCount_even_loop]
    omega

/-- Witness for C3: for the constant-one integrand on `[0, 1]` with two
subintervals, Simpson's 1/3 rule returns exactly `1`. -/
theorem simpsons_1_3_valid_formula_witness :
    (simpsons_1_3_rule (some ⟨some (fun _ => (1 : ℚ)), 0, 1, 2⟩)).1
      = some 1 := by
  have h := simpsons_1_3_valid_formula ⟨some (fun _ => (1 : ℚ)), 0, 1, 2⟩
    (fun _ => 1) rfl (by decide) (by decide)
  rw [h.1]
  norm_num [dxOf, show (2 : ℤ).toNat = 2 from rfl,
    Finset.sum_Ico_eq_sum_range, Finset.sum_range_succ]

/-- Counterexample to C4 as stated: at `intervals = 2` the weights applied
by Simpson's 1/3 rule are 1, 1 and 4, whose sum is 6, not 2. -/
theorem simpsons_1_3_weight_sum_not_n :
    ¬ (simpsons_1_3_weights 2).sum = 2 := by decide

/-- C4 (amended): for every even positive interval count `n`, the sum of
all weights applied by Simpson's 1/3 rule — 1 for each of the two
endpoints, 4 for each odd-index-loop iteration, 2 for each even-index-loop
iteration — equals `3 * n` exactly (not `n`: the rule divides `sum * dx`
by 3, so the weights times `dx / 3` integrate constants exactly). -/
theorem simpsons_1_3_weight_sum_eq_three_n (n : ℤ) (hn : 0 < n)
    (he : n % 2 = 0) : (simpsons_1_3_weights n).sum = 3 * n := by
  have hmap : ∀ (c : ℤ) (l : List ℕ),
      (l.map (fun _ => c)).sum = l.length * c := by
    intro c l
    induction l with
    | nil => simp
    | cons x xs ih => simp [ih]; ring
  simp only [simpsons_1_3_weights, List.sum_cons, List.sum_append, hmap]
  simp only [cForIndices, List.length_map, List.length_range,
    cForCount_odd_loop, cForCount_even_loop]
  omega

/-- Witness for the amended C4: at `intervals = 2` the weight sum is
`3 * 2 = 6`. -/
theorem simpsons_1_3_weight_sum_eq_three_n_witness :
    (simpsons_1_3_weights 2).sum = 3 * 2 :=
  simpsons_1_3_weight_sum_eq_three_n 2 (by norm_num) (by decide)

/-- Counterexample to C8 as stated: when the raw draw equals `RAND_MAX`,
`rand() / RAND_MAX` is exactly 1, so the sample equals the upper bound —
the draws are not all strictly below `upper`.  Concretely, integrating on
`[0, 1]` with one sample whose raw draw is `RAND_MAX` evaluates the
integrand exactly at `1 = upper`. -/
theorem monte_carlo_draw_can_reach_upper :
    ¬ ∀ x ∈ (monte_carlo_integration
        (some ⟨some (fun y => y), 0, 1, 1⟩) (fun _ => RAND_MAX)).2,
      x < (1 : ℚ) := by
  have htr : (monte_carlo_integration
      (some ⟨some (fun y => y), 0, 1, 1⟩) (fun _ => RAND_MAX)).2 = [1] := by
    norm_num [monte_carlo_integration, is_invalid, cForIndices, cForCount,
      RAND_MAX, List.range_succ, show (1 : ℤ).toNat = 1 from rfl]
  intro h
  have h1 := h 1 (by rw [htr]; exact List.mem_singleton_self 1)
  exact lt_irrefl 1 h1

/-- C8 (amended): on every valid request, Monte Carlo draws `intervals`
samples of the form `lower + u * (upper - lower)` where each
`u = rand() / RAND_MAX` lies in the closed range `[0, 1]`, and returns
`(sum_of_evaluations / intervals) * (upper - lower)`; every draw lies in
the closed interval `[lower, upper]` and may equal `upper` (when the raw
draw is `RAND_MAX`), so the draws are not always strictly below `upper`. -/
theorem monte_carlo_formula_and_bounds (p : IntegrationParams)
    (f : MathFunction) (rng : ℕ → ℕ) (hf : p.func = some f)
    (hv : is_invalid (some p) = false) :
    (monte_carlo_integration (some p) rng).1
        = some ((∑ i ∈ Finset.range p.num_intervals.toNat,
            f (p.lower_bound
              + ((rng i % (RAND_MAX + 1) : ℕ) : ℚ) / (RAND_MAX : ℚ)
                * (p.upper_bound - p.lower_bound)))
            / (p.num_intervals : ℚ) * (p.upper_bound - p.lower_bound)) ∧
      (∀ x ∈ (monte_carlo_integration (some p) rng).2,
        p.lower_bound ≤ x ∧ x ≤ p.upper_bound) ∧
      (monte_carlo_integration (some p) rng).2.length
        = p.num_intervals.toNat := by
  have hab : p.lower_bound < p.upper_bound :=
    ((is_invalid_eq_false_iff p).1 hv).2.2
  have hR : (0 : ℚ) < (RAND_MAX : ℚ) := by norm_num [RAND_MAX]
  simp only [monte_carlo_integration, hv, Bool.false_eq_true, if_false,
    Option.getD_some, hf]
  refine ⟨?_, ?_, ?_⟩
  · rw [foldl_add_map, List.map_map, cForIndices_map_sum]
    simp [cForCount_step_one, Function.comp]
  · intro x hx
    simp only [List.mem_map, cForIndices, List.mem_range] at hx
    obtain ⟨k, _, rfl⟩ := hx
    have hu0 : (0 : ℚ)
        ≤ ((rng k % (RAND_MAX + 1) : ℕ) : ℚ) / (RAND_MAX : ℚ) :=
      by positivity
    have hu1 : ((rng k % (RAND_MAX + 1) : ℕ) : ℚ) / (RAND_MAX : ℚ)
        ≤ 1 := by
      rw [div_le_one hR]
      have hm : rng k % (RAND_MAX + 1) < RAND_MAX + 1 :=
        Nat.mod_lt _ (by norm_num)
      exact_mod_cast Nat.lt_succ_iff.mp hm
    constructor
    · nlinarith [mul_nonneg hu0 (sub_nonneg.2 hab.le)]
    · nlinarith [mul_nonneg (sub_nonneg.2 hu1) (sub_nonneg.2 hab.le)]
  · simp [cForIndices, cForCount_step_one]

/-- Witness for the amended C8: one sample on `[0, 1]` with raw draw 0
evaluates the identity integrand at `0`, giving result `0`. -/
theorem monte_carlo_formula_and_bounds_witness :
    (monte_carlo_integration (some ⟨some (fun y => y), 0, 1, 1⟩)
      (fun _ => 0)).1 = some 0 := by
  have h := monte_carlo_formula_and_bounds ⟨some (fun y => y), 0, 1, 1⟩
    (fun y => y) (fun _ => 0) rfl (by decide)
  rw [h.1]
  norm_num [RAND_MAX, show (1 : ℤ).toNat = 1 from rfl]
